import Mathlib

/-!
Verification of the BucketStorage container (block-segmented storage with
stable element slots) against its specification.

The repository ships the test suite (`main.cpp`) but not the header
`bucket_storage.hpp` that implements the container, so every definition
below is modelled from the specification document: Slots are `Option`
cells (live = `some`, free = `none`), a Block is a fixed-length list of
slots, the Ledger is the list of blocks in allocation order, and a Cursor
is a (block index, slot index) pair or the end sentinel.
-/

/-- Modelled from the spec: a Block is a fixed-capacity contiguous array of
Slots; a Slot holds zero or one live Element (`bucket_storage.hpp` is
absent from the sources, so the whole container is modelled from §2-§4 of
the spec). -/
abbrev Block (T : Type) := List (Option T)

/-- Live elements of a block in slot-index order (traversal skips free slots). -/
def blockLive {T : Type} (b : Block T) : List T := b.filterMap id

/-- Modelled from the spec: the live-count of a Block. -/
def blockLiveCount {T : Type} (b : Block T) : Nat := (blockLive b).length

/-- Modelled from the spec: a Block is in the has-free-slot index iff
live-count < block_capacity, i.e. some slot is free. -/
def blockHasFree {T : Type} (b : Block T) : Bool := b.any fun s => s.isNone

/-- Every slot of the block is live (the block is full). -/
def blockFull {T : Type} (b : Block T) : Bool := b.all fun s => s.isSome

/-- Every slot of the block is free. -/
def blockAllFree {T : Type} (b : Block T) : Bool := b.all fun s => s.isNone

/-- Modelled from the spec: `allocate()` pops the free list, which is chained
in index order, so allocation fills the lowest free slot index first. -/
def blockAllocate {T : Type} (b : Block T) (v : T) : Block T :=
  match b with
  | [] => []
  | none :: rest => some v :: rest
  | some w :: rest => some w :: blockAllocate rest v

/-- Modelled from the spec: a newly constructed Block has all slots free. -/
def newBlock (T : Type) (k : Nat) : Block T := List.replicate k none

/-- Modelled from the spec: `release(slot_index)` destroys the element stored
at that slot and marks the slot free. -/
def blockRelease {T : Type} (b : Block T) (si : Nat) : Block T := b.set si none

/-- Release the slot holding the first live occurrence of value `v` in the
block (how the tests pick an element to erase: `std::find` by value). -/
def blockEraseVal {T : Type} [DecidableEq T] : Block T → T → Block T
  | [], _ => []
  | none :: r, v => none :: blockEraseVal r v
  | some w :: r, v => if w = v then none :: r else some w :: blockEraseVal r v

/-- All somes precede all nones: the shape a block has under pure append. -/
def blockPacked {T : Type} : Block T → Bool
  | [] => true
  | some _ :: rest => blockPacked rest
  | none :: rest => blockAllFree rest

/-- Modelled from the spec: the Storage facade owns the Block Ledger (blocks
in allocation order) and the fixed block_capacity chosen at construction. -/
structure BucketStorage (T : Type) where
  blockCapacity : Nat
  blocks : List (Block T)

/-- Modelled from the spec: construction with an explicit block_capacity;
no blocks are allocated up front. -/
def BucketStorage.create {T : Type} (k : Nat) : BucketStorage T := ⟨k, []⟩

/-- Modelled from the spec: insert asks the Ledger for a block with a free
slot (lowest block index first, per §9), else appends a new Block and
allocates there. -/
def insertBlocks {T : Type} (k : Nat) (v : T) : List (Block T) → List (Block T)
  | [] => [blockAllocate (newBlock T k) v]
  | b :: rest =>
      if blockHasFree b then blockAllocate b v :: rest
      else b :: insertBlocks k v rest

/-- Modelled from the spec: `insert(value)` places the element into the first
block with a free slot, appending a new block when all are full. -/
def BucketStorage.insert {T : Type} (bs : BucketStorage T) (v : T) : BucketStorage T :=
  ⟨bs.blockCapacity, insertBlocks bs.blockCapacity v bs.blocks⟩

/-- Insert a whole sequence of values, left to right. -/
def BucketStorage.insertAll {T : Type} (bs : BucketStorage T) (xs : List T) : BucketStorage T :=
  xs.foldl BucketStorage.insert bs

/-- Values seen by a full forward traversal: block by block in ledger order,
slot by slot inside a block, skipping free slots. -/
def toListBlocks {T : Type} : List (Block T) → List T
  | [] => []
  | b :: rest => blockLive b ++ toListBlocks rest

/-- Traversal of the whole container from begin() to end(). -/
def BucketStorage.toList {T : Type} (bs : BucketStorage T) : List T := toListBlocks bs.blocks

/-- Modelled from the spec: `size()` is the number of live elements. -/
def BucketStorage.size {T : Type} (bs : BucketStorage T) : Nat := bs.toList.length

/-- Modelled from the spec: `capacity()` = block_capacity × number of
allocated blocks. -/
def BucketStorage.capacity {T : Type} (bs : BucketStorage T) : Nat :=
  bs.blockCapacity * bs.blocks.length

/-- Modelled from the spec: `empty()` tells whether the container has no
live elements. -/
def BucketStorage.isEmpty {T : Type} (bs : BucketStorage T) : Bool := bs.size == 0

/-- Modelled from the spec: `clear()` destroys every live element and frees
every Block, leaving the Ledger empty. -/
def BucketStorage.clear {T : Type} (bs : BucketStorage T) : BucketStorage T :=
  ⟨bs.blockCapacity, []⟩

/-- Modelled from the spec: `shrink_to_fit()` removes and frees every Block
whose live-count is 0 without disturbing the order of the remaining blocks. -/
def BucketStorage.shrinkToFit {T : Type} (bs : BucketStorage T) : BucketStorage T :=
  ⟨bs.blockCapacity, bs.blocks.filter fun b => blockLiveCount b != 0⟩

/-- Modelled from the spec: a Cursor is a position given by a block index
and a slot index, or the one-past-everything end sentinel. -/
inductive Cursor where
  | pos : Nat → Nat → Cursor
  | endc : Cursor
deriving DecidableEq

/-- Lexicographic order on (block index, slot index) positions: exactly the
traversal order, because blocks are never reordered and slots inside a
block are visited in index order. -/
def posLt (p q : Nat × Nat) : Bool := p.1 < q.1 || (p.1 == q.1 && p.2 < q.2)

/-- Modelled from the spec: cursors compare by (block position in Ledger,
slot index within block); `end()` compares greater than every position. -/
def cursorLt : Cursor → Cursor → Bool
  | .pos b1 s1, .pos b2 s2 => posLt (b1, s1) (b2, s2)
  | .pos _ _, .endc => true
  | .endc, _ => false

/-- Derived `<=` on cursors. -/
def cursorLe (a b : Cursor) : Bool := cursorLt a b || a == b

/-- Derived `>` on cursors. -/
def cursorGt (a b : Cursor) : Bool := cursorLt b a

/-- Derived `>=` on cursors. -/
def cursorGe (a b : Cursor) : Bool := cursorLe b a

/-- Slot indices of the live slots of a block, in increasing order. -/
def liveIdx {T : Type} : Block T → List Nat
  | [] => []
  | none :: r => (liveIdx r).map Nat.succ
  | some _ :: r => 0 :: (liveIdx r).map Nat.succ

/-- Positions of all live slots of the ledger in traversal order. -/
def livePositions {T : Type} : List (Block T) → List (Nat × Nat)
  | [] => []
  | b :: rest =>
      (liveIdx b).map (fun s => (0, s)) ++
        (livePositions rest).map (fun p => (p.1 + 1, p.2))

/-- Contents of the slot at a given index inside one block. -/
def slotInBlock {T : Type} (b : Block T) (si : Nat) : Option T :=
  match b[si]? with
  | none => none
  | some s => s

/-- Contents of the slot at a (block index, slot index) position. -/
def slotAt {T : Type} (bls : List (Block T)) (bi si : Nat) : Option T :=
  match bls[bi]? with
  | none => none
  | some b => slotInBlock b si

/-- Number of live slots with index < si in a block. -/
def liveIdxBefore {T : Type} : Block T → Nat → Nat
  | [], _ => 0
  | _ :: _, 0 => 0
  | none :: r, si + 1 => liveIdxBefore r si
  | some _ :: r, si + 1 => 1 + liveIdxBefore r si

/-- Number of live slots strictly before position (bi, si) in traversal
order: the traversal index of that position. -/
def liveBefore {T : Type} : List (Block T) → Nat → Nat → Nat
  | [], _, _ => 0
  | b :: _, 0, si => liveIdxBefore b si
  | b :: rest, bi + 1, si => blockLiveCount b + liveBefore rest bi si

/-- Modelled from the spec: the cursor of the next live element strictly
after position (bi, si) in traversal order, or the end sentinel. -/
def nextLiveAfter {T : Type} (bls : List (Block T)) (bi si : Nat) : Cursor :=
  match (livePositions bls).find? (fun q => posLt (bi, si) q) with
  | some q => .pos q.1 q.2
  | none => .endc

/-- Modelled from the spec: `erase(cursor)` releases the denoted slot back to
its Block and returns a cursor to the next live element or `end()`. -/
def BucketStorage.erase {T : Type} (bs : BucketStorage T) (c : Cursor) :
    BucketStorage T × Cursor :=
  match c with
  | .endc => (bs, .endc)
  | .pos bi si =>
      (⟨bs.blockCapacity, bs.blocks.set bi (blockRelease (bs.blocks.getD bi []) si)⟩,
        nextLiveAfter bs.blocks bi si)

/-- Modelled from the spec: `begin()` is the cursor of the first live element
in traversal order, or `end()` when the container is empty. -/
def BucketStorage.beginc {T : Type} (bs : BucketStorage T) : Cursor :=
  match livePositions bs.blocks with
  | [] => .endc
  | p :: _ => .pos p.1 p.2

/-- Modelled from the spec: cursor increment moves to the next live slot in
traversal order, possibly crossing block boundaries; `++` on `end()` stays. -/
def BucketStorage.succc {T : Type} (bs : BucketStorage T) : Cursor → Cursor
  | .endc => .endc
  | .pos bi si => nextLiveAfter bs.blocks bi si

/-- Modelled from the spec: cursor decrement moves to the closest live slot
strictly before the current position; decrementing `end()` lands on the
last live element. -/
def BucketStorage.predc {T : Type} (bs : BucketStorage T) (c : Cursor) : Cursor :=
  match ((livePositions bs.blocks).filter fun q => cursorLt (.pos q.1 q.2) c).getLast? with
  | some q => .pos q.1 q.2
  | none => c

/-- Dereference a cursor: the live element it denotes, if any. -/
def BucketStorage.deref {T : Type} (bs : BucketStorage T) : Cursor → Option T
  | .endc => none
  | .pos bi si => slotAt bs.blocks bi si

/-- Erase the first live occurrence of value v from the ledger (the tests
locate the element to erase with `std::find` over the traversal). -/
def eraseValBlocks {T : Type} [DecidableEq T] : List (Block T) → T → List (Block T)
  | [], _ => []
  | b :: rest, v =>
      if v ∈ blockLive b then blockEraseVal b v :: rest
      else b :: eraseValBlocks rest v

/-- One operation of the random interleaving tests: insert a value, or erase
the (first) live element holding a value. -/
inductive Op (T : Type) where
  | ins : T → Op T
  | del : T → Op T

/-- One step of the storage under an operation. -/
def stepStorage {T : Type} [DecidableEq T] (bs : BucketStorage T) : Op T → BucketStorage T
  | .ins v => bs.insert v
  | .del v => ⟨bs.blockCapacity, eraseValBlocks bs.blocks v⟩

/-- Replay a whole operation sequence on the storage. -/
def runStorage {T : Type} [DecidableEq T] (bs : BucketStorage T) (ops : List (Op T)) :
    BucketStorage T :=
  ops.foldl stepStorage bs

/-- One step of the reference growable array: insert appends at the back,
erase removes the first element with that value. -/
def stepRef {T : Type} [DecidableEq T] (r : List T) : Op T → List T
  | .ins v => r ++ [v]
  | .del v => r.erase v

/-- Replay a whole operation sequence on the reference array. -/
def runRef {T : Type} [DecidableEq T] (r : List T) (ops : List (Op T)) : List T :=
  ops.foldl stepRef r

/-- Well-packed ledger: the shape reachable by pure appends from empty.
Every block has length k; all blocks but the last are full; the last is
packed and holds at least one live element. -/
def wellPacked {T : Type} (k : Nat) : List (Block T) → Bool
  | [] => true
  | [b] => b.length == k && blockPacked b && b.any fun s => s.isSome
  | b :: rest => b.length == k && blockFull b && wellPacked k rest

/-- The erase-forward loop of the tests: start at begin(), repeatedly erase
the cursor at hand and continue from the cursor erase returns. -/
def eraseLoop {T : Type} : Nat → BucketStorage T → Cursor → BucketStorage T
  | 0, bs, _ => bs
  | n + 1, bs, c =>
      match c with
      | .endc => bs
      | .pos bi si =>
          let r := bs.erase (.pos bi si)
          eraseLoop n r.1 r.2

@[simp] theorem blockLive_nil {T : Type} : blockLive ([] : Block T) = [] := rfl

@[simp] theorem blockLive_cons_none {T : Type} (r : Block T) :
    blockLive (none :: r) = blockLive r := by
  simp [blockLive]

@[simp] theorem blockLive_cons_some {T : Type} (w : T) (r : Block T) :
    blockLive (some w :: r) = w :: blockLive r := by
  simp [blockLive]

theorem blockAllocate_length {T : Type} (b : Block T) (v : T) :
    (blockAllocate b v).length = b.length := by
  induction b with
  | nil => rfl
  | cons s rest ih => cases s <;> simp [blockAllocate, ih]

theorem blockAllFree_live {T : Type} {b : Block T} (h : blockAllFree b = true) :
    blockLive b = [] := by
  simp [blockAllFree, List.all_eq_true] at h
  simp [blockLive, List.filterMap_eq_nil_iff]
  intro a ha
  have := h a ha
  cases a <;> simp_all

theorem allFree_packed {T : Type} {b : Block T} (h : blockAllFree b = true) :
    blockPacked b = true := by
  cases b with
  | nil => rfl
  | cons s rest =>
      cases s with
      | none => simpa [blockPacked, blockAllFree] using h
      | some w => simp [blockAllFree] at h

theorem not_hasFree_full {T : Type} {b : Block T} (h : blockHasFree b = false) :
    blockFull b = true := by
  simp [blockHasFree] at h
  simp [blockFull, List.all_eq_true]
  intro s hs
  have hh := h s hs
  cases s with
  | none => simp at hh
  | some w => simp

theorem blockFull_not_hasFree {T : Type} {b : Block T} (h : blockFull b = true) :
    blockHasFree b = false := by
  simp [blockFull, List.all_eq_true] at h
  simp [blockHasFree]
  intro s hs
  have hh := h s hs
  cases s with
  | none => simp at hh
  | some w => simp

theorem blockFull_live_length {T : Type} {b : Block T} (h : blockFull b = true) :
    (blockLive b).length = b.length := by
  induction b with
  | nil => rfl
  | cons s rest ih =>
      cases s with
      | none => simp [blockFull] at h
      | some w =>
          have hr := ih (by simpa [blockFull] using h)
          simpa using hr

theorem blockLive_ne_iff {T : Type} {b : Block T} :
    (b.any fun s => s.isSome) = true ↔ blockLive b ≠ [] := by
  induction b with
  | nil => simp
  | cons s rest ih =>
      cases s with
      | none => simpa using ih
      | some w => simp

theorem blockAllocate_packed {T : Type} {b : Block T} (v : T)
    (hp : blockPacked b = true) (hf : blockHasFree b = true) :
    blockLive (blockAllocate b v) = blockLive b ++ [v] ∧
    blockPacked (blockAllocate b v) = true := by
  induction b with
  | nil => simp [blockHasFree] at hf
  | cons s rest ih =>
      cases s with
      | none =>
          have hfree : blockAllFree rest = true := by simpa [blockPacked] using hp
          have hlive : blockLive rest = [] := blockAllFree_live hfree
          refine ⟨?_, ?_⟩
          · simp only [blockAllocate, blockLive_cons_some, blockLive_cons_none, hlive]
            rfl
          · simpa [blockAllocate, blockPacked] using allFree_packed hfree
      | some w =>
          have hf' : blockHasFree rest = true := by simpa [blockHasFree] using hf
          have hp' : blockPacked rest = true := by simpa [blockPacked] using hp
          obtain ⟨h1, h2⟩ := ih hp' hf'
          refine ⟨?_, ?_⟩
          · simp only [blockAllocate, blockLive_cons_some, h1]
            rfl
          · simpa [blockAllocate, blockPacked] using h2

theorem allFree_replicate {T : Type} (r : Nat) :
    blockAllFree (List.replicate r (none : Option T)) = true := by
  simp [blockAllFree, List.all_eq_true]

theorem allocate_newBlock {T : Type} (k : Nat) (v : T) (hk : 1 ≤ k) :
    blockAllocate (newBlock T k) v = some v :: List.replicate (k - 1) none := by
  obtain ⟨j, rfl⟩ : ∃ j, k = j + 1 := ⟨k - 1, by omega⟩
  simp [newBlock, List.replicate_succ, blockAllocate]

theorem freshBlock_facts {T : Type} (k : Nat) (v : T) (hk : 1 ≤ k) :
    blockLive (blockAllocate (newBlock T k) v) = [v] ∧
    (blockAllocate (newBlock T k) v).length = k ∧
    blockPacked (blockAllocate (newBlock T k) v) = true ∧
    ((blockAllocate (newBlock T k) v).any fun s => s.isSome) = true := by
  rw [allocate_newBlock k v hk]
  refine ⟨?_, ?_, ?_, ?_⟩
  · simp [blockAllFree_live (allFree_replicate (k - 1))]
  · simp [Nat.sub_add_cancel hk]
  · simpa [blockPacked] using allFree_packed (allFree_replicate (T := T) (k - 1))
  · simp

theorem insertBlocks_ne_nil {T : Type} (k : Nat) (v : T) (bls : List (Block T)) :
    insertBlocks k v bls ≠ [] := by
  cases bls with
  | nil => simp [insertBlocks]
  | cons b rest =>
      by_cases h : blockHasFree b = true <;> simp [insertBlocks, h]

theorem insertBlocks_packed {T : Type} {k : Nat} (v : T) (hk : 1 ≤ k) :
    ∀ {bls : List (Block T)}, wellPacked k bls = true →
      toListBlocks (insertBlocks k v bls) = toListBlocks bls ++ [v] ∧
      wellPacked k (insertBlocks k v bls) = true := by
  intro bls
  induction bls with
  | nil =>
      intro _
      obtain ⟨f1, f2, f3, f4⟩ := freshBlock_facts k v hk
      refine ⟨by simp [insertBlocks, toListBlocks, f1], ?_⟩
      simp [insertBlocks, wellPacked, f2, f3, f4]
  | cons b rest ih =>
      intro hw
      cases rest with
      | nil =>
          simp only [wellPacked, Bool.and_eq_true, beq_iff_eq] at hw
          obtain ⟨⟨hlen, hpk⟩, hsome⟩ := hw
          by_cases hf : blockHasFree b = true
          · obtain ⟨ha1, ha2⟩ := blockAllocate_packed v hpk hf
            refine ⟨?_, ?_⟩
            · simp [insertBlocks, hf, toListBlocks, ha1]
            · have hlen2 : (blockAllocate b v).length = k := by
                rw [blockAllocate_length]; exact hlen
              have hsome2 : ((blockAllocate b v).any fun s => s.isSome) = true := by
                rw [blockLive_ne_iff, ha1]
                simp
              simp [insertBlocks, hf, wellPacked, hlen2, ha2, hsome2]
          · have hfull : blockFull b = true := not_hasFree_full (by simpa using hf)
            obtain ⟨f1, f2, f3, f4⟩ := freshBlock_facts k v hk
            refine ⟨?_, ?_⟩
            · simp [insertBlocks, hf, toListBlocks, f1]
            · simp [insertBlocks, hf, wellPacked, hlen, hfull, f2, f3, f4]
      | cons c rest2 =>
          simp only [wellPacked, Bool.and_eq_true, beq_iff_eq] at hw
          obtain ⟨⟨hlen, hfull⟩, hw2⟩ := hw
          have hf : blockHasFree b = false := blockFull_not_hasFree hfull
          obtain ⟨ih1, ih2⟩ := ih hw2
          have hne := insertBlocks_ne_nil k v (c :: rest2)
          have hstep : insertBlocks k v (b :: c :: rest2) = b :: insertBlocks k v (c :: rest2) := by
            simp only [insertBlocks, hf]
            simp
          refine ⟨?_, ?_⟩
          · rw [hstep]
            simp only [toListBlocks, ih1, List.append_assoc]
          · rcases hres : insertBlocks k v (c :: rest2) with _ | ⟨r1, rtail⟩
            · exact absurd hres hne
            · rw [hres] at ih2
              rw [hstep, hres]
              simp [wellPacked, hlen, hfull, ih2]

theorem wellPacked_blocks_length {T : Type} {k : Nat} (hk : 1 ≤ k) :
    ∀ {bls : List (Block T)}, wellPacked k bls = true →
      bls.length = ((toListBlocks bls).length + k - 1) / k := by
  intro bls
  induction bls with
  | nil =>
      intro _
      have h0 : (0 + k - 1) / k = 0 := Nat.div_eq_of_lt (by omega)
      simpa [toListBlocks] using h0.symm
  | cons b rest ih =>
      intro hw
      cases rest with
      | nil =>
          simp only [wellPacked, Bool.and_eq_true, beq_iff_eq] at hw
          obtain ⟨⟨hlen, hpk⟩, hsome⟩ := hw
          have hne : blockLive b ≠ [] := blockLive_ne_iff.mp hsome
          have hc1 : 1 ≤ (blockLive b).length := by
            cases hbl : blockLive b with
            | nil => exact absurd hbl hne
            | cons x xs => simp [hbl]
          have hck : (blockLive b).length ≤ k := by
            calc (blockLive b).length ≤ b.length := b.length_filterMap_le id
            _ = k := hlen
          have h1 : ((blockLive b).length + k - 1) / k = 1 :=
            Nat.div_eq_of_lt_le (by omega) (by omega)
          simpa [toListBlocks] using h1.symm
      | cons c rest2 =>
          simp only [wellPacked, Bool.and_eq_true, beq_iff_eq] at hw
          obtain ⟨⟨hlen, hfull⟩, hw2⟩ := hw
          have hlb : (blockLive b).length = k := by
            rw [blockFull_live_length hfull, hlen]
          have iht := ih hw2
          have hlist : (toListBlocks (b :: c :: rest2)).length
              = k + (toListBlocks (c :: rest2)).length := by
            simp only [toListBlocks, List.length_append, List.append_assoc]
            simp [toListBlocks, hlb]
          rw [List.length_cons, iht, hlist]
          rw [show k + (toListBlocks (c :: rest2)).length + k - 1
              = ((toListBlocks (c :: rest2)).length + k - 1) + k from by omega]
          rw [Nat.add_div_right _ (by omega : 0 < k)]

theorem insertAll_spec {T : Type} (xs : List T) :
    ∀ (bs : BucketStorage T), 1 ≤ bs.blockCapacity →
      wellPacked bs.blockCapacity bs.blocks = true →
      (bs.insertAll xs).blockCapacity = bs.blockCapacity ∧
        wellPacked bs.blockCapacity (bs.insertAll xs).blocks = true ∧
        (bs.insertAll xs).toList = bs.toList ++ xs := by
  induction xs with
  | nil =>
      intro bs hk hw
      exact ⟨rfl, hw, by simp [BucketStorage.insertAll, BucketStorage.toList]⟩
  | cons x xs ih =>
      intro bs hk hw
      have hstep := insertBlocks_packed x hk hw
      have hin : bs.insertAll (x :: xs) = (bs.insert x).insertAll xs := rfl
      have ihx := ih (bs.insert x) hk hstep.2
      obtain ⟨ih1, ih2, ih3⟩ := ihx
      refine ⟨?_, ?_, ?_⟩
      · rw [hin, ih1]; rfl
      · rw [hin]; exact ih2
      · rw [hin, ih3]
        have hx : (bs.insert x).toList = bs.toList ++ [x] := hstep.1
        rw [hx]
        simp

/-- C1: for every element type T, every block_capacity k >= 1, and every
sequence of N insert operations with no intervening erases on a
BucketStorage, a full forward traversal from begin() to end() visits
exactly the N inserted values, in insertion order. -/
theorem C1_pure_append_traversal {T : Type} (k : Nat) (xs : List T) (hk : 1 ≤ k) :
    ((BucketStorage.create (T := T) k).insertAll xs).toList = xs ∧
    ((BucketStorage.create (T := T) k).insertAll xs).size = xs.length := by
  have h := insertAll_spec xs (BucketStorage.create k) hk rfl
  have htl : ((BucketStorage.create (T := T) k).insertAll xs).toList = xs := by
    rw [h.2.2]
    rfl
  exact ⟨htl, by rw [BucketStorage.size, htl]⟩

theorem C1_pure_append_traversal_witness :
    ((BucketStorage.create (T := Nat) 3).insertAll [5, 6, 7, 8]).toList = [5, 6, 7, 8] ∧
    ((BucketStorage.create (T := Nat) 3).insertAll [5, 6, 7, 8]).size = [5, 6, 7, 8].length :=
  C1_pure_append_traversal 3 [5, 6, 7, 8] (by decide)

/-- C4: for every block_capacity k >= 1 and every m >= 0, after m inserts
with no erases and no shrink, capacity() = k * ceil(m / k); in particular
with k = 2, after inserting 3, 4, 5 in sequence, size() = 3, capacity() = 4,
begin() dereferences to 3, and the element two increments after begin()
is 5. -/
theorem C4_capacity_quantization :
    (∀ (T : Type) (k : Nat) (xs : List T), 1 ≤ k →
        ((BucketStorage.create (T := T) k).insertAll xs).capacity
          = k * ((xs.length + k - 1) / k)) ∧
    ((BucketStorage.create (T := Nat) 2).insertAll [3, 4, 5]).size = 3 ∧
    ((BucketStorage.create (T := Nat) 2).insertAll [3, 4, 5]).capacity = 4 ∧
    ((BucketStorage.create (T := Nat) 2).insertAll [3, 4, 5]).deref
        ((BucketStorage.create (T := Nat) 2).insertAll [3, 4, 5]).beginc = some 3 ∧
    ((BucketStorage.create (T := Nat) 2).insertAll [3, 4, 5]).deref
        (((BucketStorage.create (T := Nat) 2).insertAll [3, 4, 5]).succc
          (((BucketStorage.create (T := Nat) 2).insertAll [3, 4, 5]).succc
            ((BucketStorage.create (T := Nat) 2).insertAll [3, 4, 5]).beginc)) = some 5 := by
  refine ⟨?_, by decide, by decide, by decide, by decide⟩
  intro T k xs hk
  obtain ⟨h1, h2, h3⟩ := insertAll_spec xs (BucketStorage.create k) hk rfl
  have hlen := wellPacked_blocks_length hk h2
  have htl : ((BucketStorage.create (T := T) k).insertAll xs).toList = xs := by
    rw [h3]; rfl
  rw [BucketStorage.capacity, h1]
  rw [BucketStorage.toList] at htl
  rw [hlen, htl]
  rfl

theorem C4_capacity_quantization_witness :
    ((BucketStorage.create (T := Nat) 3).insertAll [1, 2, 3, 4]).capacity
      = 3 * (([1, 2, 3, 4].length + 3 - 1) / 3) :=
  C4_capacity_quantization.1 Nat 3 [1, 2, 3, 4] (by decide)

theorem blockAllocate_perm {T : Type} {b : Block T} (v : T) (hf : blockHasFree b = true) :
    (blockLive (blockAllocate b v)).Perm (v :: blockLive b) := by
  induction b with
  | nil => simp [blockHasFree] at hf
  | cons s rest ih =>
      cases s with
      | none => simp [blockAllocate]
      | some w =>
          have hf' : blockHasFree rest = true := by simpa [blockHasFree] using hf
          have h := ih hf'
          simp only [blockAllocate, blockLive_cons_some]
          exact (h.cons w).trans (List.Perm.swap v w (blockLive rest))

theorem insertBlocks_perm {T : Type} {k : Nat} (v : T) (hk : 1 ≤ k) :
    ∀ (bls : List (Block T)),
      (toListBlocks (insertBlocks k v bls)).Perm (v :: toListBlocks bls) := by
  intro bls
  induction bls with
  | nil =>
      obtain ⟨f1, _, _, _⟩ := freshBlock_facts k v hk
      simp [insertBlocks, toListBlocks, f1]
  | cons b rest ih =>
      by_cases hf : blockHasFree b = true
      · have hstep : insertBlocks k v (b :: rest) = blockAllocate b v :: rest := by
          simp [insertBlocks, hf]
        rw [hstep]
        simp only [toListBlocks]
        exact (blockAllocate_perm v hf).append_right (toListBlocks rest)
      · have hstep : insertBlocks k v (b :: rest) = b :: insertBlocks k v rest := by
          simp only [insertBlocks]
          simp [hf]
        rw [hstep]
        simp only [toListBlocks]
        exact (ih.append_left (blockLive b)).trans List.perm_middle

theorem blockEraseVal_live {T : Type} [DecidableEq T] (b : Block T) (v : T) :
    blockLive (blockEraseVal b v) = (blockLive b).erase v := by
  induction b with
  | nil => simp [blockEraseVal]
  | cons s rest ih =>
      cases s with
      | none => simpa [blockEraseVal] using ih
      | some w =>
          by_cases hw : w = v
          · subst hw
            simp [blockEraseVal, List.erase_cons_head]
          · simp [blockEraseVal, hw, List.erase_cons_tail, ih]

theorem eraseValBlocks_toList {T : Type} [DecidableEq T] (v : T) :
    ∀ (bls : List (Block T)),
      toListBlocks (eraseValBlocks bls v) = (toListBlocks bls).erase v := by
  intro bls
  induction bls with
  | nil => simp [eraseValBlocks, toListBlocks]
  | cons b rest ih =>
      by_cases hm : v ∈ blockLive b
      · have hstep : eraseValBlocks (b :: rest) v = blockEraseVal b v :: rest := by
          simp [eraseValBlocks, hm]
        rw [hstep]
        simp only [toListBlocks]
        rw [blockEraseVal_live, List.erase_append_left _ hm]
      · have hstep : eraseValBlocks (b :: rest) v = b :: eraseValBlocks rest v := by
          simp [eraseValBlocks, hm]
        rw [hstep]
        simp only [toListBlocks]
        rw [ih, List.erase_append_right _ hm]

theorem stepStorage_blockCapacity {T : Type} [DecidableEq T] (bs : BucketStorage T) (op : Op T) :
    (stepStorage bs op).blockCapacity = bs.blockCapacity := by
  cases op <;> rfl

theorem stepStorage_perm {T : Type} [DecidableEq T] {bs : BucketStorage T} {r : List T}
    (hk : 1 ≤ bs.blockCapacity) (h : bs.toList.Perm r) (op : Op T) :
    (stepStorage bs op).toList.Perm (stepRef r op) := by
  cases op with
  | ins v =>
      have h1 := insertBlocks_perm v hk bs.blocks
      have h2 : (stepStorage bs (.ins v)).toList.Perm (v :: bs.toList) := h1
      exact h2.trans ((h.cons v).trans (List.perm_append_singleton v r).symm)
  | del v =>
      have h1 : (stepStorage bs (.del v)).toList = bs.toList.erase v :=
        eraseValBlocks_toList v bs.blocks
      rw [h1]
      exact h.erase v

theorem runs_perm {T : Type} [DecidableEq T] (ops : List (Op T)) :
    ∀ (bs : BucketStorage T) (r : List T), 1 ≤ bs.blockCapacity → bs.toList.Perm r →
      (runStorage bs ops).blockCapacity = bs.blockCapacity ∧
        (runStorage bs ops).toList.Perm (runRef r ops) := by
  induction ops with
  | nil => exact fun bs r _ h => ⟨rfl, h⟩
  | cons op ops ih =>
      intro bs r hk h
      have hcap := stepStorage_blockCapacity bs op
      have hstep := stepStorage_perm hk h op
      have ihx := ih (stepStorage bs op) (stepRef r op) (by rw [hcap]; exact hk) hstep
      exact ⟨by rw [show runStorage bs (op :: ops) = runStorage (stepStorage bs op) ops from rfl,
          ihx.1, hcap], ihx.2⟩

/-- C2: for every interleaving of inserts and erases-of-existing-elements
(erasure locates the live element holding a given value, as the random
tests do), the multiset of values obtained by a full traversal of the
BucketStorage equals the multiset obtained by replaying the same
operations on a reference growable array, and size() equals the reference
array's length after every step (every prefix of the operation list). -/
theorem C2_multiset_refinement {T : Type} [DecidableEq T] (k : Nat) (hk : 1 ≤ k)
    (ops : List (Op T)) (n : Nat) :
    (runStorage (BucketStorage.create k) (ops.take n)).toList.Perm
        (runRef [] (ops.take n)) ∧
    (runStorage (BucketStorage.create k) (ops.take n)).size
        = (runRef [] (ops.take n)).length := by
  have h := runs_perm (ops.take n) (BucketStorage.create k) [] hk (List.Perm.refl [])
  exact ⟨h.2, h.2.length_eq⟩

theorem C2_multiset_refinement_witness :
    (runStorage (BucketStorage.create (T := Nat) 2)
        ([Op.ins 1, Op.ins 2, Op.del 1, Op.ins 3].take 4)).toList.Perm
      (runRef [] ([Op.ins 1, Op.ins 2, Op.del 1, Op.ins 3].take 4)) ∧
    (runStorage (BucketStorage.create (T := Nat) 2)
        ([Op.ins 1, Op.ins 2, Op.del 1, Op.ins 3].take 4)).size
      = (runRef [] ([Op.ins 1, Op.ins 2, Op.del 1, Op.ins 3].take 4)).length :=
  C2_multiset_refinement 2 (by decide) [Op.ins 1, Op.ins 2, Op.del 1, Op.ins 3] 4

@[simp] theorem slotInBlock_nil {T : Type} (si : Nat) :
    slotInBlock ([] : Block T) si = none := rfl

@[simp] theorem slotInBlock_cons_zero {T : Type} (s : Option T) (r : Block T) :
    slotInBlock (s :: r) 0 = s := by
  simp [slotInBlock]

@[simp] theorem slotInBlock_cons_succ {T : Type} (s : Option T) (r : Block T) (si : Nat) :
    slotInBlock (s :: r) (si + 1) = slotInBlock r si := by
  simp [slotInBlock]

@[simp] theorem slotAt_nil {T : Type} (bi si : Nat) :
    slotAt ([] : List (Block T)) bi si = none := by
  simp [slotAt]

@[simp] theorem slotAt_cons_zero {T : Type} (b : Block T) (rest : List (Block T)) (si : Nat) :
    slotAt (b :: rest) 0 si = slotInBlock b si := by
  simp [slotAt]

@[simp] theorem slotAt_cons_succ {T : Type} (b : Block T) (rest : List (Block T)) (bi si : Nat) :
    slotAt (b :: rest) (bi + 1) si = slotAt rest bi si := by
  simp [slotAt]

theorem liveIdx_length {T : Type} (b : Block T) :
    (liveIdx b).length = (blockLive b).length := by
  induction b with
  | nil => rfl
  | cons s rest ih => cases s <;> simp [liveIdx, ih]

theorem livePositions_length {T : Type} (bls : List (Block T)) :
    (livePositions bls).length = (toListBlocks bls).length := by
  induction bls with
  | nil => rfl
  | cons b rest ih => simp [livePositions, toListBlocks, liveIdx_length, ih]

theorem liveIdx_map_slot {T : Type} (b : Block T) :
    (liveIdx b).map (fun s => slotInBlock b s) = (blockLive b).map some := by
  induction b with
  | nil => rfl
  | cons s rest ih =>
      cases s <;>
        simp [liveIdx, List.map_map, Function.comp_def, Nat.succ_eq_add_one, ih]

theorem livePositions_map_slot {T : Type} (bls : List (Block T)) :
    (livePositions bls).map (fun p => slotAt bls p.1 p.2) = (toListBlocks bls).map some := by
  induction bls with
  | nil => rfl
  | cons b rest ih =>
      simp only [livePositions, toListBlocks, List.map_append, List.map_map, Function.comp_def,
        slotAt_cons_zero, slotAt_cons_succ]
      rw [liveIdx_map_slot, ih]

theorem posLt_irrefl (p : Nat × Nat) : posLt p p = false := by
  simp [posLt]

theorem posLt_asymm {p q : Nat × Nat} (h : posLt p q = true) : posLt q p = false := by
  simp [posLt] at h ⊢
  omega

theorem posLt_trans {p q r : Nat × Nat} (h1 : posLt p q = true) (h2 : posLt q r = true) :
    posLt p r = true := by
  simp [posLt] at h1 h2 ⊢
  omega

theorem liveIdx_sorted {T : Type} (b : Block T) : (liveIdx b).Pairwise (· < ·) := by
  induction b with
  | nil => simp [liveIdx]
  | cons s rest ih =>
      cases s with
      | none =>
          simp only [liveIdx]
          exact List.pairwise_map.mpr (ih.imp fun h => Nat.succ_lt_succ h)
      | some w =>
          simp only [liveIdx, List.pairwise_cons]
          refine ⟨?_, List.pairwise_map.mpr (ih.imp fun h => Nat.succ_lt_succ h)⟩
          intro x hx
          simp [List.mem_map] at hx
          obtain ⟨y, _, rfl⟩ := hx
          omega

theorem livePositions_sorted {T : Type} (bls : List (Block T)) :
    (livePositions bls).Pairwise (fun p q => posLt p q = true) := by
  induction bls with
  | nil => simp [livePositions]
  | cons b rest ih =>
      simp only [livePositions]
      rw [List.pairwise_append]
      refine ⟨?_, ?_, ?_⟩
      · refine List.pairwise_map.mpr ((liveIdx_sorted b).imp fun h => ?_)
        simp [posLt]
        omega
      · refine List.pairwise_map.mpr (ih.imp fun h => ?_)
        simp [posLt] at h ⊢
        omega
      · intro a ha c hc
        simp [List.mem_map] at ha hc
        obtain ⟨y, _, rfl⟩ := ha
        obtain ⟨q1, q2, _, rfl⟩ := hc
        simp [posLt]

theorem find?_all_true {α : Type} {f : α → Bool} :
    ∀ {l : List α}, (∀ x ∈ l, f x = true) → l.find? f = l.head? := by
  intro l h
  cases l with
  | nil => rfl
  | cons x xs => simp [List.find?_cons_of_pos _ (h x (by simp))]

theorem find?_sorted_gt {L : List (Nat × Nat)}
    (hs : L.Pairwise (fun p q => posLt p q = true)) :
    ∀ {i : Nat} {p : Nat × Nat}, L[i]? = some p →
      L.find? (fun q => posLt p q) = L[i + 1]? := by
  induction L with
  | nil => intro i p hi; simp at hi
  | cons x rest ih =>
      intro i p hi
      obtain ⟨hx, hrest⟩ := List.pairwise_cons.mp hs
      cases i with
      | zero =>
          have hp : x = p := by simpa using hi
          subst hp
          rw [List.find?_cons_of_neg _ (by simp [posLt_irrefl])]
          rw [find?_all_true hx]
          rw [List.getElem?_cons_succ, List.head?_eq_getElem?]
      | succ i =>
          have hi' : rest[i]? = some p := by simpa using hi
          have hmem : p ∈ rest := List.getElem?_mem hi'
          rw [List.find?_cons_of_neg _ (by simp [posLt_asymm (hx p hmem)])]
          rw [ih hrest hi']
          rw [List.getElem?_cons_succ]

theorem filter_sorted_lt {L : List (Nat × Nat)}
    (hs : L.Pairwise (fun p q => posLt p q = true)) :
    ∀ {j : Nat} {q : Nat × Nat}, L[j]? = some q →
      L.filter (fun r => posLt r q) = L.take j := by
  induction L with
  | nil => intro j q h; simp at h
  | cons x rest ih =>
      intro j q h
      obtain ⟨hx, hrest⟩ := List.pairwise_cons.mp hs
      cases j with
      | zero =>
          have hq : x = q := by simpa using h
          subst hq
          rw [List.filter_cons_of_neg (by simp [posLt_irrefl])]
          rw [List.filter_eq_nil_iff.mpr ?_]
          · simp
          · intro r hr
            simp [posLt_asymm (hx r hr)]
      | succ j =>
          have h' : rest[j]? = some q := by simpa using h
          have hmem : q ∈ rest := List.getElem?_mem h'
          rw [List.filter_cons_of_pos (by simp [hx q hmem])]
          rw [ih hrest h']
          rfl

theorem take_getLast {α : Type} :
    ∀ (L : List α) (j : Nat), j < L.length → (L.take (j + 1)).getLast? = L[j]? := by
  intro L
  induction L with
  | nil => intro j h; simp at h
  | cons x rest ih =>
      intro j h
      cases j with
      | zero => simp
      | succ j =>
          have hlt : j < rest.length := by simpa using h
          have hres := ih j hlt
          rw [List.take_succ_cons]
          cases hre : rest.take (j + 1) with
          | nil =>
              rcases List.take_eq_nil_iff.mp hre with h0 | h0
              · exact absurd h0 (by omega)
              · rw [h0] at hlt
                simp at hlt
          | cons y ys =>
              rw [hre] at hres
              rw [List.getLast?_cons_cons, hres, List.getElem?_cons_succ]

theorem eraseIdx_map {α β : Type} (f : α → β) :
    ∀ (l : List α) (n : Nat), (l.map f).eraseIdx n = (l.eraseIdx n).map f := by
  intro l
  induction l with
  | nil => intro n; rfl
  | cons x xs ih =>
      intro n
      cases n with
      | zero => simp
      | succ n => simp [ih n]

theorem blockRelease_spec {T : Type} :
    ∀ {b : Block T} {si : Nat} {v : T}, slotInBlock b si = some v →
      blockLive (blockRelease b si) = (blockLive b).eraseIdx (liveIdxBefore b si) ∧
      (blockLive b)[liveIdxBefore b si]? = some v ∧
      liveIdx (blockRelease b si) = (liveIdx b).eraseIdx (liveIdxBefore b si) ∧
      (liveIdx b)[liveIdxBefore b si]? = some si := by
  intro b
  induction b with
  | nil => intro si v h; simp at h
  | cons s rest ih =>
      intro si v h
      cases si with
      | zero =>
          have hs : s = some v := by simpa using h
          subst hs
          refine ⟨?_, ?_, ?_, ?_⟩ <;>
            simp [blockRelease, liveIdxBefore, liveIdx]
      | succ si =>
          have h' : slotInBlock rest si = some v := by simpa using h
          obtain ⟨h1, h2, h3, h4⟩ := ih h'
          cases s with
          | none =>
              refine ⟨?_, ?_, ?_, ?_⟩
              · simpa [blockRelease, liveIdxBefore] using h1
              · simpa [liveIdxBefore] using h2
              · simp only [blockRelease, List.set_cons_succ, liveIdx, liveIdxBefore]
                rw [show (rest.set si none) = blockRelease rest si from rfl, h3,
                  eraseIdx_map]
              · simp only [liveIdx, liveIdxBefore]
                rw [List.getElem?_map, h4]
                rfl
          | some w =>
              refine ⟨?_, ?_, ?_, ?_⟩
              · simp only [blockRelease, List.set_cons_succ, blockLive_cons_some,
                  liveIdxBefore, Nat.add_comm 1, List.eraseIdx_cons_succ]
                rw [show (rest.set si none) = blockRelease rest si from rfl, h1]
              · simp only [blockLive_cons_some, liveIdxBefore, Nat.add_comm 1,
                  List.getElem?_cons_succ]
                exact h2
              · simp only [blockRelease, List.set_cons_succ, liveIdx, liveIdxBefore,
                  Nat.add_comm 1, List.eraseIdx_cons_succ]
                rw [show (rest.set si none) = blockRelease rest si from rfl, h3,
                  eraseIdx_map]
              · simp only [liveIdx, liveIdxBefore, Nat.add_comm 1, List.getElem?_cons_succ]
                rw [List.getElem?_map, h4]
                rfl

theorem eraseAt_spec {T : Type} :
    ∀ {bls : List (Block T)} {bi si : Nat} {v : T}, slotAt bls bi si = some v →
      toListBlocks (bls.set bi (blockRelease (bls.getD bi []) si))
          = (toListBlocks bls).eraseIdx (liveBefore bls bi si) ∧
      (toListBlocks bls)[liveBefore bls bi si]? = some v ∧
      livePositions (bls.set bi (blockRelease (bls.getD bi []) si))
          = (livePositions bls).eraseIdx (liveBefore bls bi si) ∧
      (livePositions bls)[liveBefore bls bi si]? = some (bi, si) := by
  intro bls
  induction bls with
  | nil => intro bi si v h; simp at h
  | cons b rest ih =>
      intro bi si v h
      cases bi with
      | zero =>
          have hb : slotInBlock b si = some v := by simpa using h
          obtain ⟨h1, h2, h3, h4⟩ := blockRelease_spec hb
          have hlt : liveIdxBefore b si < (blockLive b).length := by
            obtain ⟨hh, _⟩ := List.getElem?_eq_some_iff.mp h2
            exact hh
          have hlb : liveBefore (b :: rest) 0 si = liveIdxBefore b si := rfl
          have hset : (b :: rest).set 0 (blockRelease ((b :: rest).getD 0 []) si)
              = blockRelease b si :: rest := by simp
          rw [hset, hlb]
          refine ⟨?_, ?_, ?_, ?_⟩
          · simp only [toListBlocks]
            rw [h1, List.eraseIdx_append_of_lt_length hlt]
          · simp only [toListBlocks]
            rw [List.getElem?_append_left hlt, h2]
          · simp only [livePositions]
            have hlt2 : liveIdxBefore b si < ((liveIdx b).map (fun s => (0, s))).length := by
              rw [List.length_map, liveIdx_length]
              exact hlt
            rw [h3, ← eraseIdx_map, List.eraseIdx_append_of_lt_length hlt2]
          · simp only [livePositions]
            have hlt2 : liveIdxBefore b si < ((liveIdx b).map (fun s => (0, s))).length := by
              rw [List.length_map, liveIdx_length]
              exact hlt
            rw [List.getElem?_append_left hlt2, List.getElem?_map, h4]
            rfl
      | succ bi =>
          have hr : slotAt rest bi si = some v := by simpa using h
          obtain ⟨h1, h2, h3, h4⟩ := ih hr
          have hlb : liveBefore (b :: rest) (bi + 1) si
              = (blockLive b).length + liveBefore rest bi si := rfl
          have hset : (b :: rest).set (bi + 1) (blockRelease ((b :: rest).getD (bi + 1) []) si)
              = b :: rest.set bi (blockRelease (rest.getD bi []) si) := by simp
          rw [hset, hlb]
          refine ⟨?_, ?_, ?_, ?_⟩
          · simp only [toListBlocks]
            rw [h1, List.eraseIdx_append_of_length_le (by omega)]
            rw [show (blockLive b).length + liveBefore rest bi si - (blockLive b).length
                = liveBefore rest bi si from by omega]
          · simp only [toListBlocks]
            rw [List.getElem?_append_right (by omega)]
            rw [show (blockLive b).length + liveBefore rest bi si - (blockLive b).length
                = liveBefore rest bi si from by omega]
            exact h2
          · simp only [livePositions]
            have hlen : ((liveIdx b).map (fun s => (0, s))).length = (blockLive b).length := by
              rw [List.length_map, liveIdx_length]
            rw [h3, ← eraseIdx_map, List.eraseIdx_append_of_length_le (by omega)]
            rw [hlen]
            rw [show (blockLive b).length + liveBefore rest bi si - (blockLive b).length
                = liveBefore rest bi si from by omega]
          · simp only [livePositions]
            have hlen : ((liveIdx b).map (fun s => (0, s))).length = (blockLive b).length := by
              rw [List.length_map, liveIdx_length]
            rw [List.getElem?_append_right (by omega)]
            rw [show (blockLive b).length + liveBefore rest bi si
                - ((liveIdx b).map (fun s => (0, s))).length = liveBefore rest bi si from by omega]
            rw [List.getElem?_map, h4]
            rfl

/-- C5: for every BucketStorage and every cursor denoting a currently live
element (slot (bi, si) holds value v), erase destroys exactly that element
(the traversal loses precisely the entry at the cursor's traversal index),
decrements size() by one, and returns the cursor of the next live element
in traversal order, or end() if the erased element was the last. -/
theorem C5_erase_live_cursor {T : Type} (k : Nat) (bls : List (Block T)) (bi si : Nat) (v : T)
    (h : slotAt bls bi si = some v) :
    ((⟨k, bls⟩ : BucketStorage T).erase (.pos bi si)).1.toList
        = (toListBlocks bls).eraseIdx (liveBefore bls bi si) ∧
    (toListBlocks bls)[liveBefore bls bi si]? = some v ∧
    ((⟨k, bls⟩ : BucketStorage T).erase (.pos bi si)).1.size + 1
        = (⟨k, bls⟩ : BucketStorage T).size ∧
    ((⟨k, bls⟩ : BucketStorage T).erase (.pos bi si)).2
        = (match (livePositions bls)[liveBefore bls bi si + 1]? with
            | some q => Cursor.pos q.1 q.2
            | none => Cursor.endc) ∧
    livePositions ((⟨k, bls⟩ : BucketStorage T).erase (.pos bi si)).1.blocks
        = (livePositions bls).eraseIdx (liveBefore bls bi si) := by
  obtain ⟨e1, e2, e3, e4⟩ := eraseAt_spec h
  have hlt : liveBefore bls bi si < (toListBlocks bls).length :=
    (List.getElem?_eq_some_iff.mp e2).1
  have hfind := find?_sorted_gt (livePositions_sorted bls) e4
  refine ⟨e1, e2, ?_, ?_, e3⟩
  · show (toListBlocks (bls.set bi (blockRelease (bls.getD bi []) si))).length + 1
        = (toListBlocks bls).length
    rw [e1, List.length_eraseIdx_of_lt hlt]
    omega
  · show nextLiveAfter bls bi si = _
    rw [nextLiveAfter, hfind]

theorem C5_erase_live_cursor_witness :
    ((⟨5, [[some 1, some 2], [some 3, none]]⟩ : BucketStorage Nat).erase (.pos 0 1)).1.toList
        = (toListBlocks [[some 1, some 2], [some 3, none]]).eraseIdx
            (liveBefore [[some 1, some 2], [some 3, none]] 0 1) ∧
    (toListBlocks [[some 1, some 2], [some 3, none]])[liveBefore
        [[some 1, some 2], [some 3, none]] 0 1]? = some 2 ∧
    ((⟨5, [[some 1, some 2], [some 3, none]]⟩ : BucketStorage Nat).erase (.pos 0 1)).1.size + 1
        = (⟨5, [[some 1, some 2], [some 3, none]]⟩ : BucketStorage Nat).size ∧
    ((⟨5, [[some 1, some 2], [some 3, none]]⟩ : BucketStorage Nat).erase (.pos 0 1)).2
        = (match (livePositions [[some 1, some 2], [some 3, none]])[liveBefore
              [[some 1, some 2], [some 3, none]] 0 1 + 1]? with
            | some q => Cursor.pos q.1 q.2
            | none => Cursor.endc) ∧
    livePositions ((⟨5, [[some 1, some 2], [some 3, none]]⟩ :
          BucketStorage Nat).erase (.pos 0 1)).1.blocks
        = (livePositions [[some 1, some 2], [some 3, none]]).eraseIdx
            (liveBefore [[some 1, some 2], [some 3, none]] 0 1) :=
  C5_erase_live_cursor 5 [[some 1, some 2], [some 3, none]] 0 1 2 (by decide)

/-- C6: for every non-empty BucketStorage, prefix decrement applied to the
end() sentinel yields a valid cursor denoting the last live element in
traversal order (the last value seen by a full traversal). -/
theorem C6_decrement_end {T : Type} (bs : BucketStorage T) (h : 0 < bs.size) :
    ∃ p v, bs.predc .endc = Cursor.pos p.1 p.2 ∧
      (livePositions bs.blocks).getLast? = some p ∧
      slotAt bs.blocks p.1 p.2 = some v ∧
      bs.toList.getLast? = some v := by
  have hfilter : (livePositions bs.blocks).filter
      (fun q => cursorLt (.pos q.1 q.2) Cursor.endc) = livePositions bs.blocks :=
    List.filter_eq_self.mpr fun a _ => rfl
  have hsz : 0 < (toListBlocks bs.blocks).length := h
  have hlen : (livePositions bs.blocks).length = (toListBlocks bs.blocks).length :=
    livePositions_length bs.blocks
  have hne : livePositions bs.blocks ≠ [] := by
    intro hnil
    rw [hnil] at hlen
    simp at hlen
    omega
  have htne : bs.toList ≠ [] := by
    intro hnil
    rw [BucketStorage.size, hnil] at h
    simp at h
  obtain ⟨p, hL⟩ : ∃ p, (livePositions bs.blocks).getLast? = some p := by
    cases hLL : (livePositions bs.blocks).getLast? with
    | none => exact absurd (List.getLast?_eq_none_iff.mp hLL) hne
    | some p => exact ⟨p, rfl⟩
  obtain ⟨v, hT⟩ : ∃ v, bs.toList.getLast? = some v := by
    cases hTT : bs.toList.getLast? with
    | none => exact absurd (List.getLast?_eq_none_iff.mp hTT) htne
    | some v => exact ⟨v, rfl⟩
  have hT2 : (toListBlocks bs.blocks).getLast? = some v := hT
  have hlast := congrArg List.getLast? (livePositions_map_slot bs.blocks)
  rw [List.getLast?_map, List.getLast?_map, hL, hT2] at hlast
  simp at hlast
  refine ⟨p, v, ?_, hL, hlast, hT⟩
  show BucketStorage.predc bs .endc = Cursor.pos p.1 p.2
  simp only [BucketStorage.predc]
  rw [hfilter, hL]

theorem C6_decrement_end_witness :
    ∃ p v, (⟨3, [[some 4, none], [some 7]]⟩ : BucketStorage Nat).predc .endc
          = Cursor.pos p.1 p.2 ∧
      (livePositions (⟨3, [[some 4, none], [some 7]]⟩ : BucketStorage Nat).blocks).getLast?
          = some p ∧
      slotAt (⟨3, [[some 4, none], [some 7]]⟩ : BucketStorage Nat).blocks p.1 p.2 = some v ∧
      (⟨3, [[some 4, none], [some 7]]⟩ : BucketStorage Nat).toList.getLast? = some v :=
  C6_decrement_end ⟨3, [[some 4, none], [some 7]]⟩ (by decide)

theorem toListBlocks_filter_live {T : Type} (bls : List (Block T)) :
    toListBlocks (bls.filter fun b => blockLiveCount b != 0) = toListBlocks bls := by
  induction bls with
  | nil => rfl
  | cons b rest ih =>
      by_cases hc : blockLiveCount b = 0
      · have hbl : blockLive b = [] := List.length_eq_zero.mp hc
        rw [List.filter_cons_of_neg (by simp [hc])]
        simp [toListBlocks, ih, hbl]
      · rw [List.filter_cons_of_pos (by simp [hc])]
        simp [toListBlocks, ih]

/-- C7: shrink_to_fit() leaves size() and the traversal-order sequence of
values unchanged, and afterwards capacity() equals block_capacity times the
number of blocks that still contain at least one live element. -/
theorem C7_shrink_invariant {T : Type} (bs : BucketStorage T) :
    bs.shrinkToFit.toList = bs.toList ∧
    bs.shrinkToFit.size = bs.size ∧
    bs.shrinkToFit.capacity
        = bs.blockCapacity * (bs.blocks.countP fun b => blockLiveCount b != 0) := by
  have h1 : bs.shrinkToFit.toList = bs.toList := toListBlocks_filter_live bs.blocks
  refine ⟨h1, ?_, ?_⟩
  · rw [BucketStorage.size, h1]
    rfl
  · rw [BucketStorage.capacity, BucketStorage.shrinkToFit, List.countP_eq_length_filter]

/-- C8: after clear(), size() = 0 and capacity() = 0 (every block is
deallocated) and a full traversal visits no elements, from any state. -/
theorem C8_clear {T : Type} (bs : BucketStorage T) :
    bs.clear.size = 0 ∧ bs.clear.capacity = 0 ∧ bs.clear.toList = [] :=
  ⟨rfl, by simp [BucketStorage.clear, BucketStorage.capacity], rfl⟩

theorem sorted_posLt_iff {L : List (Nat × Nat)}
    (hs : L.Pairwise (fun p q => posLt p q = true)) {i j : Nat} {p q : Nat × Nat}
    (hi : L[i]? = some p) (hj : L[j]? = some q) :
    (posLt p q = true ↔ i < j) := by
  obtain ⟨hil, hig⟩ := List.getElem?_eq_some_iff.mp hi
  obtain ⟨hjl, hjg⟩ := List.getElem?_eq_some_iff.mp hj
  have hpair := List.pairwise_iff_getElem.mp hs
  constructor
  · intro hlt
    by_contra hcon
    rcases Nat.lt_or_ge j i with hji | hij
    · have := hpair j i hjl hil hji
      rw [hig, hjg] at this
      rw [posLt_asymm this] at hlt
      exact Bool.false_ne_true hlt
    · have hij' : i = j := by omega
      subst hij'
      rw [hig] at hjg
      subst hjg
      rw [posLt_irrefl] at hlt
      exact Bool.false_ne_true hlt
  · intro hij
    have := hpair i j hil hjl hij
    rw [hig, hjg] at this
    exact this

theorem cursorLt_trans_all (a b c : Cursor)
    (h1 : cursorLt a b = true) (h2 : cursorLt b c = true) : cursorLt a c = true := by
  cases a <;> cases b <;> cases c <;> simp [cursorLt, posLt] at h1 h2 ⊢ <;> omega

theorem cursorLt_irrefl_all (a : Cursor) : cursorLt a a = false := by
  cases a <;> simp [cursorLt, posLt]

theorem cursorLt_total_all (a b : Cursor) :
    cursorLt a b = true ∨ a = b ∨ cursorLt b a = true := by
  cases a <;> cases b <;> simp [cursorLt, posLt] <;> omega

/-- C9: for cursors obtained from the same instance (here given as the i-th
and j-th live positions of the ledger in traversal order), a < b holds iff
a's position is reached strictly before b's in a forward traversal; the
relation is transitive, irreflexive and total on cursors, consistent with
the derived <=, >, >= comparisons and with ++ and -- (the successor of the
i-th live position is the (i+1)-th or end(), the predecessor of the j-th is
the (j-1)-th), and end() compares greater than every live cursor. -/
theorem C9_cursor_order {T : Type} (bls : List (Block T)) (i j : Nat) (p q : Nat × Nat)
    (hi : (livePositions bls)[i]? = some p) (hj : (livePositions bls)[j]? = some q) :
    (cursorLt (.pos p.1 p.2) (.pos q.1 q.2) = true ↔ i < j) ∧
    cursorLt (.pos p.1 p.2) Cursor.endc = true ∧
    cursorLt Cursor.endc (.pos p.1 p.2) = false ∧
    (cursorLe (.pos p.1 p.2) (.pos q.1 q.2) = true ↔ i ≤ j) ∧
    (cursorGt (.pos q.1 q.2) (.pos p.1 p.2) = true ↔ i < j) ∧
    (cursorGe (.pos q.1 q.2) (.pos p.1 p.2) = true ↔ i ≤ j) ∧
    (∀ a b c : Cursor, cursorLt a b = true → cursorLt b c = true → cursorLt a c = true) ∧
    (∀ a : Cursor, cursorLt a a = false) ∧
    (∀ a b : Cursor, cursorLt a b = true ∨ a = b ∨ cursorLt b a = true) ∧
    (∀ kk : Nat, (⟨kk, bls⟩ : BucketStorage T).succc (.pos p.1 p.2)
        = match (livePositions bls)[i + 1]? with
          | some r => Cursor.pos r.1 r.2
          | none => Cursor.endc) ∧
    (∀ kk : Nat, 0 < j → ∀ r : Nat × Nat, (livePositions bls)[j - 1]? = some r →
        (⟨kk, bls⟩ : BucketStorage T).predc (.pos q.1 q.2) = Cursor.pos r.1 r.2) := by
  obtain ⟨pb, ps⟩ := p
  obtain ⟨qb, qs⟩ := q
  have hs := livePositions_sorted bls
  have hlt := sorted_posLt_iff hs hi hj
  have hgt := sorted_posLt_iff hs hj hi
  have heq : (pb, ps) = (qb, qs) ↔ i = j := by
    constructor
    · intro hpq
      rw [hpq] at hlt hgt
      rw [posLt_irrefl] at hlt hgt
      have h1 : ¬ i < j := by
        intro hc
        exact Bool.false_ne_true (hlt.mpr hc)
      have h2 : ¬ j < i := by
        intro hc
        exact Bool.false_ne_true (hgt.mpr hc)
      omega
    · intro hij
      subst hij
      rw [hi] at hj
      exact (Option.some.injEq _ _).mp hj
  refine ⟨hlt, rfl, rfl, ?_, hlt, ?_, cursorLt_trans_all, cursorLt_irrefl_all,
    cursorLt_total_all, ?_, ?_⟩
  · show (cursorLt (.pos pb ps) (.pos qb qs) || (Cursor.pos pb ps == Cursor.pos qb qs)) = true
        ↔ i ≤ j
    rw [Bool.or_eq_true, beq_iff_eq]
    show (posLt (pb, ps) (qb, qs) = true ∨ Cursor.pos pb ps = Cursor.pos qb qs) ↔ i ≤ j
    rw [hlt]
    constructor
    · rintro (hc | hc)
      · omega
      · have : (pb, ps) = ((qb, qs) : Nat × Nat) := by
          simpa [Cursor.pos.injEq, Prod.ext_iff] using hc
        have := heq.mp this
        omega
    · intro hij
      rcases Nat.lt_or_ge i j with hc | hc
      · exact Or.inl hc
      · have hij2 : i = j := by omega
        have := heq.mpr hij2
        right
        rw [show qb = pb from by simp [Prod.ext_iff] at this; omega,
          show qs = ps from by simp [Prod.ext_iff] at this; omega]
  · show cursorLe (.pos pb ps) (.pos qb qs) = true ↔ i ≤ j
    rw [show cursorLe (.pos pb ps) (.pos qb qs)
        = (cursorLt (.pos pb ps) (.pos qb qs) || (Cursor.pos pb ps == Cursor.pos qb qs))
        from rfl]
    rw [Bool.or_eq_true, beq_iff_eq]
    show (posLt (pb, ps) (qb, qs) = true ∨ Cursor.pos pb ps = Cursor.pos qb qs) ↔ i ≤ j
    rw [hlt]
    constructor
    · rintro (hc | hc)
      · omega
      · have : (pb, ps) = ((qb, qs) : Nat × Nat) := by
          simpa [Cursor.pos.injEq, Prod.ext_iff] using hc
        have := heq.mp this
        omega
    · intro hij
      rcases Nat.lt_or_ge i j with hc | hc
      · exact Or.inl hc
      · have hij2 : i = j := by omega
        have := heq.mpr hij2
        right
        rw [show qb = pb from by simp [Prod.ext_iff] at this; omega,
          show qs = ps from by simp [Prod.ext_iff] at this; omega]
  · intro kk
    show nextLiveAfter bls pb ps = _
    rw [nextLiveAfter, find?_sorted_gt hs hi]
  · intro kk hj0 r hr
    show BucketStorage.predc ⟨kk, bls⟩ (.pos qb qs) = Cursor.pos r.1 r.2
    simp only [BucketStorage.predc]
    have hfun : (fun x : Nat × Nat => cursorLt (.pos x.1 x.2) (.pos qb qs))
        = fun x : Nat × Nat => posLt x (qb, qs) := rfl
    rw [hfun, filter_sorted_lt hs hj]
    have hjl : j < (livePositions bls).length := (List.getElem?_eq_some_iff.mp hj).1
    have htk := take_getLast (livePositions bls) (j - 1) (by omega)
    rw [show j - 1 + 1 = j from by omega] at htk
    rw [htk, hr]

theorem beginc_eq_endc_iff {T : Type} (bs : BucketStorage T) :
    bs.beginc = Cursor.endc ↔ livePositions bs.blocks = [] := by
  cases hL : livePositions bs.blocks with
  | nil => simp [BucketStorage.beginc, hL]
  | cons p rest => simp [BucketStorage.beginc, hL]

theorem size_zero_of_no_positions {T : Type} {bs : BucketStorage T}
    (hL : livePositions bs.blocks = []) : bs.size = 0 := by
  have hl := livePositions_length bs.blocks
  rw [hL] at hl
  simp at hl
  rw [BucketStorage.size, BucketStorage.toList]
  omega

theorem eraseLoop_empty {T : Type} :
    ∀ (n : Nat) (bs : BucketStorage T), bs.size ≤ n →
      (eraseLoop n bs bs.beginc).isEmpty = true := by
  intro n
  induction n with
  | zero =>
      intro bs h
      have hz : bs.size = 0 := by omega
      simp [eraseLoop, BucketStorage.isEmpty, hz]
  | succ n ih =>
      intro bs h
      cases hb : bs.beginc with
      | endc =>
          have hz : bs.size = 0 := size_zero_of_no_positions ((beginc_eq_endc_iff bs).mp hb)
          simp [eraseLoop, BucketStorage.isEmpty, hz]
      | pos bi si =>
          cases hL : livePositions bs.blocks with
          | nil =>
              have hcon : bs.beginc = Cursor.endc := (beginc_eq_endc_iff bs).mpr hL
              rw [hb] at hcon
              exact absurd hcon (by simp)
          | cons p0 rest =>
              have hp0 : bs.beginc = Cursor.pos p0.1 p0.2 := by
                simp [BucketStorage.beginc, hL]
              rw [hb] at hp0
              injection hp0 with hbi hsi
              subst hbi
              subst hsi
              have hL0 : (livePositions bs.blocks)[0]? = some (p0.1, p0.2) := by
                rw [hL]
                simp
              obtain ⟨v, hv⟩ : ∃ v, slotAt bs.blocks p0.1 p0.2 = some v := by
                have hmap := congrArg (fun l => l[0]?) (livePositions_map_slot bs.blocks)
                simp only [List.getElem?_map, hL0] at hmap
                cases hT : (toListBlocks bs.blocks)[0]? with
                | none => rw [hT] at hmap; simp at hmap
                | some t =>
                    rw [hT] at hmap
                    simp at hmap
                    exact ⟨t, hmap⟩
              obtain ⟨e1, e2, e3, e4⟩ := eraseAt_spec hv
              have hs := livePositions_sorted bs.blocks
              have hi0 : liveBefore bs.blocks p0.1 p0.2 = 0 := by
                by_contra hne
                have hpair := List.pairwise_iff_getElem.mp hs
                obtain ⟨hl1, hg1⟩ := List.getElem?_eq_some_iff.mp hL0
                obtain ⟨hl2, hg2⟩ := List.getElem?_eq_some_iff.mp e4
                have hpl := hpair 0 (liveBefore bs.blocks p0.1 p0.2) hl1 hl2 (by omega)
                rw [hg1, hg2] at hpl
                rw [posLt_irrefl] at hpl
                exact Bool.false_ne_true hpl
              rw [hi0] at e1 e2 e3 e4
              have hfind := find?_sorted_gt hs e4
              rw [hL, List.eraseIdx_cons_zero] at e3
              have hlt0 : (0 : Nat) < (toListBlocks bs.blocks).length :=
                (List.getElem?_eq_some_iff.mp e2).1
              have hrun : eraseLoop (n + 1) bs (Cursor.pos p0.1 p0.2)
                  = eraseLoop n (bs.erase (.pos p0.1 p0.2)).1 (bs.erase (.pos p0.1 p0.2)).2 :=
                rfl
              have hsz : (bs.erase (.pos p0.1 p0.2)).1.size ≤ n := by
                have hlen2 : (bs.erase (.pos p0.1 p0.2)).1.size
                    = ((toListBlocks bs.blocks).eraseIdx 0).length := by
                  show (toListBlocks (bs.blocks.set p0.1
                      (blockRelease (bs.blocks.getD p0.1 []) p0.2))).length
                      = ((toListBlocks bs.blocks).eraseIdx 0).length
                  rw [e1]
                have hbs : bs.size = (toListBlocks bs.blocks).length := rfl
                have hle := List.length_eraseIdx_of_lt hlt0
                omega
              have e3' : livePositions (bs.erase (.pos p0.1 p0.2)).1.blocks = rest := e3
              have hnext : (bs.erase (.pos p0.1 p0.2)).2
                  = (bs.erase (.pos p0.1 p0.2)).1.beginc := by
                show nextLiveAfter bs.blocks p0.1 p0.2 = (bs.erase (.pos p0.1 p0.2)).1.beginc
                rw [nextLiveAfter, hfind, hL]
                simp only [BucketStorage.beginc, e3']
                cases rest with
                | nil => simp
                | cons q rs => simp
              rw [hrun, hnext]
              exact ih _ hsz

theorem C9_cursor_order_witness :
    (cursorLt (.pos 0 0) (.pos 1 1) = true ↔ (0 : Nat) < 2) ∧
    cursorLt (.pos 0 0) Cursor.endc = true ∧
    cursorLt Cursor.endc (.pos 0 0) = false ∧
    (cursorLe (.pos 0 0) (.pos 1 1) = true ↔ (0 : Nat) ≤ 2) ∧
    (cursorGt (.pos 1 1) (.pos 0 0) = true ↔ (0 : Nat) < 2) ∧
    (cursorGe (.pos 1 1) (.pos 0 0) = true ↔ (0 : Nat) ≤ 2) ∧
    (∀ a b c : Cursor, cursorLt a b = true → cursorLt b c = true → cursorLt a c = true) ∧
    (∀ a : Cursor, cursorLt a a = false) ∧
    (∀ a b : Cursor, cursorLt a b = true ∨ a = b ∨ cursorLt b a = true) ∧
    (∀ kk : Nat, (⟨kk, [[some 10, none], [some 20, some 30]]⟩ :
          BucketStorage Nat).succc (.pos 0 0)
        = match (livePositions [[some 10, none], [some 20, some 30]])[0 + 1]? with
          | some r => Cursor.pos r.1 r.2
          | none => Cursor.endc) ∧
    (∀ kk : Nat, 0 < 2 → ∀ r : Nat × Nat,
        (livePositions [[some 10, none], [some 20, some 30]])[2 - 1]? = some r →
        (⟨kk, [[some 10, none], [some 20, some 30]]⟩ :
            BucketStorage Nat).predc (.pos 1 1) = Cursor.pos r.1 r.2) :=
  C9_cursor_order [[some 10, none], [some 20, some 30]] 0 2 (0, 0) (1, 1)
    (by decide) (by decide)

/-- C10: empty() returns true iff size() = 0; a freshly constructed
instance is empty; after a successful insert the container is not empty;
erasing every element through the cursors returned by erase (starting at
begin() and following the returned cursor) makes it empty again. -/
theorem C10_empty_iff {T : Type} (bs : BucketStorage T) (k : Nat) (v : T) :
    (bs.isEmpty = true ↔ bs.size = 0) ∧
    (BucketStorage.create (T := T) k).isEmpty = true ∧
    (1 ≤ bs.blockCapacity → (bs.insert v).isEmpty = false) ∧
    (eraseLoop bs.size bs bs.beginc).isEmpty = true := by
  refine ⟨?_, rfl, ?_, eraseLoop_empty bs.size bs (Nat.le_refl _)⟩
  · simp [BucketStorage.isEmpty]
  · intro hk
    have hperm := insertBlocks_perm v hk bs.blocks
    have hlen : (bs.insert v).toList.length = (v :: toListBlocks bs.blocks).length :=
      hperm.length_eq
    simp only [List.length_cons] at hlen
    simp [BucketStorage.isEmpty, BucketStorage.size, hlen]

theorem C10_empty_iff_witness :
    ((⟨2, [[some 5, none]]⟩ : BucketStorage Nat).isEmpty = true
        ↔ (⟨2, [[some 5, none]]⟩ : BucketStorage Nat).size = 0) ∧
    (BucketStorage.create (T := Nat) 4).isEmpty = true ∧
    (1 ≤ (⟨2, [[some 5, none]]⟩ : BucketStorage Nat).blockCapacity →
      ((⟨2, [[some 5, none]]⟩ : BucketStorage Nat).insert 9).isEmpty = false) ∧
    (eraseLoop (⟨2, [[some 5, none]]⟩ : BucketStorage Nat).size
        (⟨2, [[some 5, none]]⟩ : BucketStorage Nat)
        (⟨2, [[some 5, none]]⟩ : BucketStorage Nat).beginc).isEmpty = true :=
  C10_empty_iff ⟨2, [[some 5, none]]⟩ 4 9
